import Mathlib

/-!
Verification of the firmware-dump automation scripts.

The definitions below are shallow embeddings of the Python scripts
found under .github/scripts and scripts of the repository:
  - find_next_version.py           (Version Selector)
  - check_firmware_mi_community.py (Firmware Discovery)
  - update_manifest_md5.py         (MD5 Updater)
  - update_firmware_index.py       (Index Publisher)
  - manual_manifest_creator.py     (Manual Manifest Editor)

String comparison in Python is code-point-wise lexicographic; it is
modelled here by lexLe on lists of characters.  Python list.sort with a
key function is stable; it is modelled by the stable sort pySort below
applied to the corresponding boolean relation.
-/

/-- Code-point-wise lexicographic order on character lists, the order
Python uses when comparing str values. -/
def lexLe : List Char → List Char → Bool
  | [], _ => true
  | _ :: _, [] => false
  | a :: as, b :: bs =>
    if a.toNat < b.toNat then true
    else if b.toNat < a.toNat then false
    else lexLe as bs

theorem lexLe_refl : ∀ l : List Char, lexLe l l = true
  | [] => rfl
  | a :: as => by simp [lexLe, lexLe_refl as]

theorem lexLe_total : ∀ a b : List Char, lexLe a b = true ∨ lexLe b a = true
  | [], _ => Or.inl rfl
  | _ :: _, [] => Or.inr rfl
  | a :: as, b :: bs => by
    rcases Nat.lt_trichotomy a.toNat b.toNat with h | h | h
    · exact Or.inl (by simp [lexLe, h])
    · rcases lexLe_total as bs with h2 | h2
      · exact Or.inl (by simp [lexLe, h, h2])
      · exact Or.inr (by simp [lexLe, h, h2])
    · exact Or.inr (by simp [lexLe, h])

theorem lexLe_trans : ∀ a b c : List Char,
    lexLe a b = true → lexLe b c = true → lexLe a c = true
  | [], _, _, _, _ => rfl
  | _ :: _, [], _, h1, _ => by simp [lexLe] at h1
  | _ :: _, _ :: _, [], _, h2 => by simp [lexLe] at h2
  | a :: as, b :: bs, c :: cs, h1, h2 => by
    simp only [lexLe] at h1 h2 ⊢
    rcases Nat.lt_trichotomy a.toNat b.toNat with hab | hab | hab <;>
      rcases Nat.lt_trichotomy b.toNat c.toNat with hbc | hbc | hbc
    · have hac := Nat.lt_trans hab hbc
      simp [hac]
    · have hac : a.toNat < c.toNat := hbc ▸ hab
      simp [hac]
    · simp [Nat.lt_asymm hbc, hbc] at h2
    · have hac : a.toNat < c.toNat := hab ▸ hbc
      simp [hac]
    · have hac : a.toNat = c.toNat := hab.trans hbc
      simp [hab] at h1
      simp [hbc] at h2
      simp [hac]
      exact lexLe_trans as bs cs h1 h2
    · simp [Nat.lt_asymm hbc, hbc] at h2
    · simp [Nat.lt_asymm hab, hab] at h1
    · simp [Nat.lt_asymm hab, hab] at h1
    · simp [Nat.lt_asymm hab, hab] at h1

/-- Convenience form of lexLe over whole strings. -/
def strLe (a b : String) : Bool := lexLe a.data b.data

/-!
## Stable sorting

Python list.sort is a stable sort with respect to a key function.  A
stable sort of a list under a total preorder is unique, so any stable
sorting algorithm models it exactly.  The insertion sort below places
each element after every already-placed element that compares
less-or-equal, which preserves the original order of elements with
equal keys; unlike List.mergeSort it evaluates by kernel reduction,
which the concrete examples below need.
-/

/-- Insert a after every leading element b of an already sorted list
with le b a, keeping elements with equal keys in first-come order. -/
def insertLe {α : Type} (le : α → α → Bool) (a : α) : List α → List α
  | [] => [a]
  | b :: bs => if le b a then b :: insertLe le a bs else a :: b :: bs

/-- Stable sort by the boolean relation le, the model of Python
list.sort (and of sorted with reverse=True when le is the reversed
comparison). -/
def pySort {α : Type} (le : α → α → Bool) (l : List α) : List α :=
  l.foldl (fun acc a => insertLe le a acc) []

theorem insertLe_perm {α : Type} (le : α → α → Bool) (a : α) :
    ∀ l : List α, (insertLe le a l).Perm (a :: l)
  | [] => List.Perm.refl _
  | b :: bs => by
    simp only [insertLe]
    by_cases h : le b a = true
    · simp only [h, if_true]
      exact ((insertLe_perm le a bs).cons b).trans (List.Perm.swap a b bs)
    · simp [h]

theorem pySort_perm {α : Type} (le : α → α → Bool) (l : List α) :
    (pySort le l).Perm l := by
  have key : ∀ (l : List α) (acc : List α),
      (l.foldl (fun acc a => insertLe le a acc) acc).Perm (l ++ acc) := by
    intro l
    induction l with
    | nil => intro acc; simp
    | cons a l ih =>
      intro acc
      simp only [List.foldl_cons, List.cons_append]
      refine (ih (insertLe le a acc)).trans ?_
      refine (List.Perm.append_left l (insertLe_perm le a acc)).trans ?_
      exact List.perm_middle
  simpa using key l []

theorem pySort_mem {α : Type} (le : α → α → Bool) (l : List α) (x : α) :
    x ∈ pySort le l ↔ x ∈ l :=
  (pySort_perm le l).mem_iff

theorem insertLe_sorted {α : Type} (le : α → α → Bool)
    (htrans : ∀ a b c, le a b = true → le b c = true → le a c = true)
    (htotal : ∀ a b, (le a b || le b a) = true) (a : α) :
    ∀ l : List α, List.Pairwise (fun x y => le x y = true) l →
      List.Pairwise (fun x y => le x y = true) (insertLe le a l)
  | [], _ => by simp [insertLe]
  | b :: bs, hp => by
    obtain ⟨hb, hbs⟩ := List.pairwise_cons.mp hp
    simp only [insertLe]
    by_cases h : le b a = true
    · simp only [h, if_true]
      refine List.pairwise_cons.mpr ⟨?_, insertLe_sorted le htrans htotal a bs hbs⟩
      intro x hx
      rcases List.mem_cons.mp ((insertLe_perm le a bs).mem_iff.mp hx) with hxa | hxbs
      · exact hxa ▸ h
      · exact hb x hxbs
    · simp only [h, if_false]
      have hab : le a b = true := by
        have := htotal a b
        rcases Bool.or_eq_true_iff.mp this with h1 | h1
        · exact h1
        · exact absurd h1 h
      refine List.pairwise_cons.mpr ⟨?_, hp⟩
      intro x hx
      rcases List.mem_cons.mp hx with hxb | hxbs
      · exact hxb ▸ hab
      · exact htrans a b x hab (hb x hxbs)

theorem pySort_sorted {α : Type} (le : α → α → Bool)
    (htrans : ∀ a b c, le a b = true → le b c = true → le a c = true)
    (htotal : ∀ a b, (le a b || le b a) = true) (l : List α) :
    List.Pairwise (fun x y => le x y = true) (pySort le l) := by
  have key : ∀ (l : List α) (acc : List α),
      List.Pairwise (fun x y => le x y = true) acc →
      List.Pairwise (fun x y => le x y = true)
        (l.foldl (fun acc a => insertLe le a acc) acc) := by
    intro l
    induction l with
    | nil => intro acc h; simpa using h
    | cons a l ih =>
      intro acc h
      exact ih (insertLe le a acc) (insertLe_sorted le htrans htotal a acc h)
  exact key l [] List.Pairwise.nil

/-!
## Data model

VersionRecord and Manifest, as stored in the per-region JSON files
firmware_updates/REGION.json.  The date key is optional in the scripts
(accessed with dict.get and a default), so it is modelled as an Option.
-/

/-- One firmware version record of a manifest. -/
structure VersionInfo where
  version : String
  date : Option String
  hyperos_version : String
  android_version : String
  md5 : String
  urls : List String
deriving DecidableEq, Repr

/-- A per-region manifest document. -/
structure Manifest where
  region : String
  versions : List VersionInfo
deriving DecidableEq, Repr

/-!
## Version Selector (find_next_version.py)
-/

/-- Release tag computed for a record, find_next_version.py line 47:
tag = f-string v{version}-{region}. -/
def versionTag (region : String) (v : VersionInfo) : String :=
  "v" ++ v.version ++ "-" ++ region

/-- Sort key of the oldest-first sort, line 59: x.get(date, 9999-99-99). -/
def dateKeySel (v : VersionInfo) : String := v.date.getD "9999-99-99"

/-- Boolean comparison used by unprocessed.sort(key=...): ascending,
code-point-wise, on the date key. -/
def selLe (a b : VersionInfo) : Bool := strLe (dateKeySel a) (dateKeySel b)

/-- Lines 44-65 of find_next_version.py: keep the records whose tag is
not among the already released tags, sort them by date ascending
(stable), and take the first one.  Returns none when every record is
already released. -/
def findNextVersion (region : String) (existingTags : List String)
    (versions : List VersionInfo) : Option VersionInfo :=
  let unprocessed := versions.filter (fun v => decide (versionTag region v ∉ existingTags))
  (pySort selLe unprocessed).head?

/-- Python str.split with a one-character separator: splits at every
occurrence of the separator, keeping empty parts, so the number of
parts is the number of separators plus one. -/
def pySplitChar (sep : Char) : List Char → List (List Char)
  | [] => [[]]
  | c :: cs =>
    let r := pySplitChar sep cs
    if c = sep then [] :: r
    else
      match r with
      | h :: t => (c :: h) :: t
      | [] => [[c]]

/-- Lines 69-102 of find_next_version.py: mirror selection.  The probe
argument abstracts the curl speed test; none models a probe whose
output could not be parsed as a number (the except branch), which the
code scores as 0.  With a single url the probe loop is skipped.  Two
crash paths of the script are modelled by none: an empty url list
raises IndexError at urls[0] (line 71), and, when more than one url
exists, line 78 evaluates url.split('/')[2] outside the try for every
url of the loop, which raises an uncaught IndexError as soon as some
url holds fewer than two slashes (fewer than three split parts). -/
def selectFastestUrl (probe : String → Option ℚ) (urls : List String) : Option String :=
  match urls with
  | [] => none
  | u0 :: rest =>
    if rest.isEmpty then some u0
    else if (u0 :: rest).all (fun u => decide (2 < (pySplitChar '/' u.data).length)) then
      let mirror_speeds := (u0 :: rest).map (fun u => (u, (probe u).getD 0))
      let sorted := pySort (fun x y => decide (y.2 ≤ x.2)) mirror_speeds
      match sorted.head? with
      | some top => if 0 < top.2 then some top.1 else some u0
      | none => some u0
    else none

/-- Possible terminations of find_next_version.py main. -/
inductive SelectorOutcome where
  | configError
  | loadError
  | noVersions
  | allReleased
  | selected (v : VersionInfo) (url : Option String)
deriving DecidableEq, Repr

/-- Exit status of each termination of find_next_version.py main:
only a missing REGION variable exits with status 1. -/
def selectorExitCode : SelectorOutcome → Nat
  | .configError => 1
  | _ => 0

/-- Main flow of find_next_version.py.  The region is none when the
REGION environment variable is unset or empty; the manifest is none
when loading the manifest file failed.  A none url inside the selected
outcome records that the mirror loop crashed with IndexError instead
of emitting a url. -/
def selectorMain (region : Option String) (manifest : Option Manifest)
    (existingTags : List String) (probe : String → Option ℚ) : SelectorOutcome :=
  match region with
  | none => .configError
  | some reg =>
    match manifest with
    | none => .loadError
    | some m =>
      if m.versions.isEmpty then .noVersions
      else
        match findNextVersion reg existingTags m.versions with
        | none => .allReleased
        | some nv => .selected nv (selectFastestUrl probe nv.urls)

/-!
## Firmware Discovery (check_firmware_mi_community.py), manifest update
-/

/-- Sort key of the manifest sorts, check_firmware_mi_community.py line
200 and manual_manifest_creator.py line 160: x.get(date, 0000-00-00). -/
def dateKeyUpd (v : VersionInfo) : String := v.date.getD "0000-00-00"

/-- Boolean comparison of the manifest sorts: date descending
(reverse=True), stable. -/
def updGe (a b : VersionInfo) : Bool := strLe (dateKeyUpd b) (dateKeyUpd a)

/-- Lines 176-206 of check_firmware_mi_community.py, the pure part of
update_manifest: skip when the version string already exists (the file
is then left untouched and False is returned), otherwise append the
record, re-sort by date descending and return the manifest that is
written, with True. -/
def update_manifest (manifest : Manifest) (version_info : VersionInfo) :
    Manifest × Bool :=
  if version_info.version ∈ manifest.versions.map VersionInfo.version then
    (manifest, false)
  else
    ({ manifest with
        versions := pySort updGe (manifest.versions ++ [version_info]) },
      true)

/-- Final save of manual_manifest_creator.py (lines 158-167): the
collected version list is sorted by date descending before writing. -/
def manualEditorSave (versions : List VersionInfo) : List VersionInfo :=
  pySort updGe versions

/-!
## MD5 Updater (update_manifest_md5.py)
-/

/-- Loop of update_manifest_md5.py lines 29-33: set the md5 field of
the first record whose version matches, leave the rest unchanged. -/
def setMd5First : List VersionInfo → String → String → List VersionInfo
  | [], _, _ => []
  | v :: vs, ver, h =>
    if v.version = ver then { v with md5 := h } :: vs
    else v :: setMd5First vs ver h

/-- Possible terminations of update_manifest_md5.py main.  Only the
updated outcome writes the manifest file; every other branch returns
before the save. -/
inductive Md5Outcome where
  | configError
  | loadError
  | versionNotFound
  | updated (m : Manifest)
deriving DecidableEq, Repr

/-- Exit status of each termination of update_manifest_md5.py main. -/
def md5ExitCode : Md5Outcome → Nat
  | .configError => 1
  | .loadError => 1
  | .versionNotFound => 1
  | .updated _ => 0

/-- Main flow of update_manifest_md5.py: the three environment values
are none when unset or empty, the manifest is none when loading the
file failed. -/
def updateManifestMd5Main (region version md5 : Option String)
    (manifest : Option Manifest) : Md5Outcome :=
  match region, version, md5 with
  | some _, some ver, some h =>
    match manifest with
    | none => .loadError
    | some m =>
      if m.versions.any (fun v => v.version = ver) then
        .updated { m with versions := setMd5First m.versions ver h }
      else .versionNotFound
  | _, _, _ => .configError

/-!
## Shared facts about the sort comparisons
-/

theorem selLe_trans : ∀ a b c : VersionInfo,
    selLe a b = true → selLe b c = true → selLe a c = true :=
  fun _ _ _ h1 h2 => lexLe_trans _ _ _ h1 h2

theorem selLe_total : ∀ a b : VersionInfo, (selLe a b || selLe b a) = true := by
  intro a b
  rcases lexLe_total (dateKeySel a).data (dateKeySel b).data with h | h <;>
    simp [selLe, strLe, h]

theorem updGe_trans : ∀ a b c : VersionInfo,
    updGe a b = true → updGe b c = true → updGe a c = true :=
  fun _ _ _ h1 h2 => lexLe_trans _ _ _ h2 h1

theorem updGe_total : ∀ a b : VersionInfo, (updGe a b || updGe b a) = true := by
  intro a b
  rcases lexLe_total (dateKeyUpd a).data (dateKeyUpd b).data with h | h <;>
    simp [updGe, strLe, h]

/-!
## Claim theorems: Version Selector
-/

/-- C1: whenever the manifest holds at least one record whose tag
v{version}-{region} is not among the already published tags, the
Version Selector returns an unpublished record whose date key is
smallest, under code-point-wise string comparison, among all
unpublished records. -/
theorem find_next_oldest (region : String) (existingTags : List String)
    (versions : List VersionInfo)
    (hne : ∃ v ∈ versions, versionTag region v ∉ existingTags) :
    ∃ w, findNextVersion region existingTags versions = some w ∧
      w ∈ versions ∧ versionTag region w ∉ existingTags ∧
      ∀ v ∈ versions, versionTag region v ∉ existingTags → selLe w v = true := by
  obtain ⟨v0, hv0, hnp⟩ := hne
  have hmem0 : v0 ∈ versions.filter (fun v => decide (versionTag region v ∉ existingTags)) := by
    simp [List.mem_filter, hv0, hnp]
  have hperm := pySort_perm selLe
    (versions.filter (fun v => decide (versionTag region v ∉ existingTags)))
  have hsne : pySort selLe (versions.filter
      (fun v => decide (versionTag region v ∉ existingTags))) ≠ [] := by
    intro hnil
    rw [hnil] at hperm
    exact absurd (hperm.symm.mem_iff.mp hmem0) (List.not_mem_nil v0)
  obtain ⟨w, t, hwt⟩ := List.exists_cons_of_ne_nil hsne
  have hsorted := pySort_sorted selLe selLe_trans selLe_total
    (versions.filter (fun v => decide (versionTag region v ∉ existingTags)))
  rw [hwt] at hsorted hperm
  have hwmem : w ∈ versions.filter (fun v => decide (versionTag region v ∉ existingTags)) :=
    hperm.mem_iff.mp (List.mem_cons_self w t)
  rw [List.mem_filter] at hwmem
  refine ⟨w, ?_, hwmem.1, by simpa using hwmem.2, ?_⟩
  · simp only [findNextVersion]
    rw [hwt, List.head?_cons]
  · intro v hv hvnp
    have hvf : v ∈ versions.filter (fun v => decide (versionTag region v ∉ existingTags)) := by
      simp [List.mem_filter, hv, hvnp]
    rcases List.mem_cons.mp (hperm.mem_iff.mpr hvf) with hvw | hvt
    · exact hvw ▸ lexLe_refl _
    · exact (List.pairwise_cons.mp hsorted).1 v hvt

/-- Record dated 2025-11-20 of the example scenario for region eea. -/
def demoRecA : VersionInfo :=
  { version := "OS2.0.207.0.VNEEUXM", date := some "2025-11-20",
    hyperos_version := "2.0", android_version := "15.0", md5 := "",
    urls := ["https://bn.d.miui.com/a.tgz"] }

/-- Record dated 2025-11-10 of the example scenario for region eea. -/
def demoRecB : VersionInfo :=
  { version := "OS2.0.206.0.VNEEUXM", date := some "2025-11-10",
    hyperos_version := "2.0", android_version := "15.0", md5 := "",
    urls := ["https://bn.d.miui.com/b.tgz"] }

/-- Witness for C1, the example scenario of the specification: a
manifest for region eea with two unpublished records dated 2025-11-20
and 2025-11-10; the Selector picks the record dated 2025-11-10. -/
theorem find_next_oldest_witness :
    (∃ v ∈ [demoRecA, demoRecB], versionTag "eea" v ∉ ([] : List String)) ∧
    (∃ w, findNextVersion "eea" [] [demoRecA, demoRecB] = some w ∧
      w ∈ [demoRecA, demoRecB] ∧ versionTag "eea" w ∉ ([] : List String) ∧
      ∀ v ∈ [demoRecA, demoRecB], versionTag "eea" v ∉ ([] : List String) →
        selLe w v = true) ∧
    findNextVersion "eea" [] [demoRecA, demoRecB] = some demoRecB := by
  refine ⟨by decide, find_next_oldest "eea" [] [demoRecA, demoRecB] (by decide), by decide⟩

/-- C5: when the loaded manifest is non-empty and the tag of every
record is already among the published tags, find_next_version.py
reports that all versions are released (the nothing-to-do outcome) and
terminates with exit status 0; being a total function of its inputs,
the model never raises. -/
theorem selector_all_released (reg : String) (m : Manifest) (tags : List String)
    (probe : String → Option ℚ) (hne : m.versions ≠ [])
    (hall : ∀ v ∈ m.versions, versionTag reg v ∈ tags) :
    selectorMain (some reg) (some m) tags probe = .allReleased ∧
    selectorExitCode (selectorMain (some reg) (some m) tags probe) = 0 := by
  have hfilter : m.versions.filter (fun v => decide (versionTag reg v ∉ tags)) = [] := by
    rw [List.filter_eq_nil_iff]
    intro v hv
    simp [hall v hv]
  have hfind : findNextVersion reg tags m.versions = none := by
    simp only [findNextVersion]
    rw [hfilter]
    rfl
  have hempty : m.versions.isEmpty = false := by
    cases h : m.versions with
    | nil => exact absurd h hne
    | cons a l => rfl
  constructor
  · simp [selectorMain, hempty, hfind]
  · simp [selectorMain, hempty, hfind, selectorExitCode]

/-- Witness for C5: a one-record manifest whose tag is published. -/
theorem selector_all_released_witness :
    selectorMain (some "eea") (some { region := "eea", versions := [demoRecB] })
        ["vOS2.0.206.0.VNEEUXM-eea"] (fun _ => none) = .allReleased ∧
    selectorExitCode (selectorMain (some "eea")
        (some { region := "eea", versions := [demoRecB] })
        ["vOS2.0.206.0.VNEEUXM-eea"] (fun _ => none)) = 0 :=
  selector_all_released "eea" { region := "eea", versions := [demoRecB] }
    ["vOS2.0.206.0.VNEEUXM-eea"] (fun _ => none) (by decide) (by decide)

/-- C4 counterexample: a non-empty two-url list whose second url holds
no slash.  Line 78 of find_next_version.py evaluates
url.split('/')[2] outside the try, so the script raises an uncaught
IndexError and selects no url at all, refuting the claim that
selection never fails for every non-empty url list. -/
theorem select_fastest_url_counterexample :
    (["https://a/x.tgz", "bad"] : List String) ≠ [] ∧
    selectFastestUrl (fun _ => none) ["https://a/x.tgz", "bad"] = none := by
  constructor <;> decide

/-- C4 as amended: for a non-empty url list in which, when more than
one url exists, every url holds at least two slashes (at least three
parts under split on slash, so the domain extraction of line 78 is
defined), the mirror selection of find_next_version.py returns a
member of the list (a failed probe is scored 0, never removed), and
when every probe scores at most 0 it returns the first url of the
list. -/
theorem select_fastest_url_wellformed (probe : String → Option ℚ) (urls : List String)
    (hne : urls ≠ [])
    (hwf : 1 < urls.length → ∀ u ∈ urls, 2 < (pySplitChar '/' u.data).length) :
    (∃ u, selectFastestUrl probe urls = some u ∧ u ∈ urls) ∧
    ((∀ u ∈ urls, (probe u).getD 0 ≤ 0) →
      selectFastestUrl probe urls = some (urls.head hne)) := by
  match urls, hne, hwf with
  | u0 :: rest, _, hwf =>
    rcases hrest : rest.isEmpty with _ | _
    · -- more than one url: the probe loop runs
      have hlen : 1 < (u0 :: rest).length := by
        cases rest with
        | nil => simp at hrest
        | cons b bs => simp
      have hall : (u0 :: rest).all
          (fun u => decide (2 < (pySplitChar '/' u.data).length)) = true := by
        rw [List.all_eq_true]
        intro u hu
        exact decide_eq_true (hwf hlen u hu)
      have hperm := pySort_perm (fun x y : String × ℚ => decide (y.2 ≤ x.2))
        ((u0 :: rest).map (fun u => (u, (probe u).getD 0)))
      have hsne : pySort (fun x y : String × ℚ => decide (y.2 ≤ x.2))
          ((u0 :: rest).map (fun u => (u, (probe u).getD 0))) ≠ [] := by
        intro hnil
        rw [hnil] at hperm
        have : (u0, (probe u0).getD 0) ∈
            (u0 :: rest).map (fun u => (u, (probe u).getD 0)) := by
          exact List.mem_map_of_mem _ (List.mem_cons_self u0 rest)
        exact absurd (hperm.symm.mem_iff.mp this) (List.not_mem_nil _)
      obtain ⟨top, t, htop⟩ := List.exists_cons_of_ne_nil hsne
      have htopmem : top ∈ (u0 :: rest).map (fun u => (u, (probe u).getD 0)) := by
        rw [htop] at hperm
        exact hperm.mem_iff.mp (List.mem_cons_self top t)
      obtain ⟨u, hu, hueq⟩ := List.mem_map.mp htopmem
      constructor
      · by_cases hpos : (0 : ℚ) < top.2
        · refine ⟨top.1, ?_, ?_⟩
          · simp only [selectFastestUrl, hrest, Bool.false_eq_true, if_false, hall,
              eq_self_iff_true, if_true]
            rw [htop]
            simp [hpos]
          · rw [← hueq]
            exact hu
        · refine ⟨u0, ?_, List.mem_cons_self u0 rest⟩
          simp only [selectFastestUrl, hrest, Bool.false_eq_true, if_false, hall,
            eq_self_iff_true, if_true]
          rw [htop]
          simp [hpos]
      · intro hzero
        have htop2 : top.2 ≤ 0 := by
          rw [← hueq]
          exact hzero u hu
        have hnpos : ¬ (0 : ℚ) < top.2 := not_lt.mpr htop2
        simp only [selectFastestUrl, hrest, Bool.false_eq_true, if_false, hall,
          eq_self_iff_true, if_true]
        rw [htop]
        simp [hnpos, List.head]
    · -- single url: returned unconditionally
      constructor
      · exact ⟨u0, by simp [selectFastestUrl, hrest], List.mem_cons_self u0 rest⟩
      · intro _
        simp [selectFastestUrl, hrest, List.head]

/-- Witness for the amended C4: two well-formed mirrors, both probes
fail (return none); the first url is selected. -/
theorem select_fastest_url_wellformed_witness :
    (∃ u, selectFastestUrl (fun _ => none) ["https://a/x.tgz", "https://b/x.tgz"] = some u ∧
      u ∈ ["https://a/x.tgz", "https://b/x.tgz"]) ∧
    ((∀ u ∈ ["https://a/x.tgz", "https://b/x.tgz"],
        ((fun _ => (none : Option ℚ)) u).getD 0 ≤ 0) →
      selectFastestUrl (fun _ => none) ["https://a/x.tgz", "https://b/x.tgz"] =
        some (["https://a/x.tgz", "https://b/x.tgz"].head (by decide))) :=
  select_fastest_url_wellformed (fun _ => none) ["https://a/x.tgz", "https://b/x.tgz"]
    (by decide) (by decide)

/-!
## Claim theorems: manifest update and MD5 update
-/

/-- C2: adding a discovered record is idempotent by the version key.
If a record with the same version string already exists, the operation
returns the manifest unchanged and reports False (no write happens in
that branch of the script); consequently applying the operation twice
equals applying it once, and a record whose version key occurs at most
once keeps occurring at most once. -/
theorem update_manifest_idempotent :
    (∀ (m : Manifest) (v : VersionInfo),
      v.version ∈ m.versions.map VersionInfo.version →
      update_manifest m v = (m, false)) ∧
    (∀ (m : Manifest) (v : VersionInfo),
      update_manifest (update_manifest m v).1 v = ((update_manifest m v).1, false)) ∧
    (∀ (m : Manifest) (v : VersionInfo),
      m.versions.countP (fun r => r.version == v.version) ≤ 1 →
      (update_manifest m v).1.versions.countP (fun r => r.version == v.version) ≤ 1) := by
  have hpart1 : ∀ (m : Manifest) (v : VersionInfo),
      v.version ∈ m.versions.map VersionInfo.version →
      update_manifest m v = (m, false) := by
    intro m v hmem
    simp [update_manifest, hmem]
  refine ⟨hpart1, ?_, ?_⟩
  · intro m v
    by_cases hmem : v.version ∈ m.versions.map VersionInfo.version
    · rw [hpart1 m v hmem]
      exact hpart1 m v hmem
    · have hup : update_manifest m v =
          ({ m with versions := pySort updGe (m.versions ++ [v]) }, true) := by
        simp [update_manifest, hmem]
      rw [hup]
      apply hpart1
      simp only [List.mem_map]
      exact ⟨v, (pySort_mem updGe (m.versions ++ [v]) v).mpr
        (List.mem_append_right _ (List.mem_cons_self v [])), rfl⟩
  · intro m v hcount
    by_cases hmem : v.version ∈ m.versions.map VersionInfo.version
    · rw [hpart1 m v hmem]
      exact hcount
    · have hup : update_manifest m v =
          ({ m with versions := pySort updGe (m.versions ++ [v]) }, true) := by
        simp [update_manifest, hmem]
      rw [hup]
      have hperm := pySort_perm updGe (m.versions ++ [v])
      rw [hperm.countP_eq]
      rw [List.countP_append]
      have hzero : m.versions.countP (fun r => r.version == v.version) = 0 := by
        rw [List.countP_eq_zero]
        intro r hr
        simp only [beq_iff_eq]
        intro heq
        exact hmem (List.mem_map.mpr ⟨r, hr, heq⟩)
      rw [hzero]
      simp

/-- Witness for C2: adding a record to the empty eea manifest once and
then again; the second add is a no-op, and the count stays at one. -/
theorem update_manifest_idempotent_witness :
    (demoRecB.version ∈
        (update_manifest { region := "eea", versions := [] } demoRecB).1.versions.map
          VersionInfo.version →
      update_manifest (update_manifest { region := "eea", versions := [] } demoRecB).1
          demoRecB =
        ((update_manifest { region := "eea", versions := [] } demoRecB).1, false)) ∧
    update_manifest (update_manifest { region := "eea", versions := [] } demoRecB).1
        demoRecB =
      ((update_manifest { region := "eea", versions := [] } demoRecB).1, false) ∧
    (({ region := "eea", versions := [] } : Manifest).versions.countP
        (fun r => r.version == demoRecB.version) ≤ 1 →
      (update_manifest { region := "eea", versions := [] } demoRecB).1.versions.countP
        (fun r => r.version == demoRecB.version) ≤ 1) :=
  ⟨update_manifest_idempotent.1 _ demoRecB,
    update_manifest_idempotent.2.1 { region := "eea", versions := [] } demoRecB,
    update_manifest_idempotent.2.2 { region := "eea", versions := [] } demoRecB⟩

/-- C3: when the requested version string matches no record of the
loaded manifest, update_manifest_md5.py terminates with the
version-not-found outcome, whose exit status is 1; only the updated
outcome carries a manifest to write, so no write occurs on this
path. -/
theorem md5_update_version_missing (region ver h : String) (m : Manifest)
    (hmiss : ∀ v ∈ m.versions, v.version ≠ ver) :
    updateManifestMd5Main (some region) (some ver) (some h) (some m) = .versionNotFound ∧
    md5ExitCode (updateManifestMd5Main (some region) (some ver) (some h) (some m)) = 1 ∧
    ∀ m', updateManifestMd5Main (some region) (some ver) (some h) (some m) ≠ .updated m' := by
  have hany : m.versions.any (fun v => decide (v.version = ver)) = false := by
    rw [List.any_eq_false]
    intro v hv
    simp [hmiss v hv]
  refine ⟨?_, ?_, ?_⟩ <;> simp [updateManifestMd5Main, hany, md5ExitCode]

/-- Witness for C3: asking for a version that the one-record eea
manifest does not contain. -/
theorem md5_update_version_missing_witness :
    updateManifestMd5Main (some "eea") (some "OS2.0.999.0.VNEEUXM") (some "d41d8cd9")
        (some { region := "eea", versions := [demoRecB] }) = .versionNotFound ∧
    md5ExitCode (updateManifestMd5Main (some "eea") (some "OS2.0.999.0.VNEEUXM")
        (some "d41d8cd9") (some { region := "eea", versions := [demoRecB] })) = 1 ∧
    ∀ m', updateManifestMd5Main (some "eea") (some "OS2.0.999.0.VNEEUXM") (some "d41d8cd9")
        (some { region := "eea", versions := [demoRecB] }) ≠ .updated m' :=
  md5_update_version_missing "eea" "OS2.0.999.0.VNEEUXM" "d41d8cd9"
    { region := "eea", versions := [demoRecB] } (by decide)

/-!
## Claim theorems: manifest sortedness invariant
-/

theorem setMd5First_dateKeys : ∀ (vs : List VersionInfo) (ver h : String),
    (setMd5First vs ver h).map dateKeyUpd = vs.map dateKeyUpd
  | [], _, _ => rfl
  | v :: vs, ver, h => by
    simp only [setMd5First]
    by_cases hv : v.version = ver
    · simp [hv, dateKeyUpd]
    · simp [hv, setMd5First_dateKeys vs ver h]

/-- C8: sortedness by date descending is an invariant of every
persisted manifest.  The discovery add (when it writes, that is when
it returns True) and the manual editor save re-sort the list, so their
output is always sorted; the MD5 update only rewrites the md5 field of
the first matching record, leaving every date and the list order
unchanged, so the order it writes back is the order it loaded and a
sorted manifest stays sorted. -/
theorem manifest_sorted_invariant :
    (∀ (m : Manifest) (v : VersionInfo) (m' : Manifest),
      update_manifest m v = (m', true) →
      List.Pairwise (fun a b => updGe a b = true) m'.versions) ∧
    (∀ vs : List VersionInfo,
      List.Pairwise (fun a b => updGe a b = true) (manualEditorSave vs)) ∧
    (∀ (vs : List VersionInfo) (ver h : String),
      List.Pairwise (fun a b => updGe a b = true) vs →
      List.Pairwise (fun a b => updGe a b = true) (setMd5First vs ver h)) := by
  refine ⟨?_, ?_, ?_⟩
  · intro m v m' hup
    by_cases hmem : v.version ∈ m.versions.map VersionInfo.version
    · simp [update_manifest, hmem] at hup
    · have : update_manifest m v =
          ({ m with versions := pySort updGe (m.versions ++ [v]) }, true) := by
        simp [update_manifest, hmem]
      rw [this] at hup
      have hm' : m' = { m with versions := pySort updGe (m.versions ++ [v]) } :=
        ((Prod.mk.injEq _ _ _ _).mp hup).1.symm
      rw [hm']
      exact pySort_sorted updGe updGe_trans updGe_total _
  · intro vs
    exact pySort_sorted updGe updGe_trans updGe_total vs
  · intro vs ver h hsorted
    have hmap := setMd5First_dateKeys vs ver h
    have h1 : List.Pairwise (fun x y : String => strLe y x = true) (vs.map dateKeyUpd) :=
      List.pairwise_map.mpr hsorted
    have h2 : List.Pairwise (fun x y : String => strLe y x = true)
        ((setMd5First vs ver h).map dateKeyUpd) := hmap ▸ h1
    exact List.pairwise_map.mp h2

/-- Witness for C8: a concrete add, a concrete save of two records in
ascending date order, and a concrete md5 patch of a sorted list. -/
theorem manifest_sorted_invariant_witness :
    List.Pairwise (fun a b => updGe a b = true)
      (update_manifest { region := "eea", versions := [demoRecB] } demoRecA).1.versions ∧
    List.Pairwise (fun a b => updGe a b = true) (manualEditorSave [demoRecB, demoRecA]) ∧
    List.Pairwise (fun a b => updGe a b = true)
      (setMd5First [demoRecA, demoRecB] "OS2.0.206.0.VNEEUXM" "d41d8cd9") :=
  ⟨manifest_sorted_invariant.1 { region := "eea", versions := [demoRecB] } demoRecA
      (update_manifest { region := "eea", versions := [demoRecB] } demoRecA).1 (by decide),
    manifest_sorted_invariant.2.1 [demoRecB, demoRecA],
    manifest_sorted_invariant.2.2 [demoRecA, demoRecB] "OS2.0.206.0.VNEEUXM" "d41d8cd9"
      (by decide)⟩

/-!
## Index Publisher (update_firmware_index.py): README rewriting

Python substring search, re.sub with the pattern START.*?END under
DOTALL, and str.replace are modelled by a first-occurrence splitter
and two scanners.  The scanners carry a step counter bounded by the
input length; every replacement consumes at least the non-empty
pattern, so the counter never runs out on the calls made here, and
the counter-exhausted fallback coincides with the no-match fallback.
-/

/-- Split s at the first occurrence of pat: the prefix strictly before
the occurrence and the suffix strictly after it.  none when pat does
not occur in s.  This models Python substring search. -/
def splitOnce (pat : List Char) : List Char → Option (List Char × List Char)
  | [] => if pat.isEmpty then some ([], []) else none
  | c :: cs =>
    if pat.isPrefixOf (c :: cs) then some ([], (c :: cs).drop pat.length)
    else
      match splitOnce pat cs with
      | some (pre, suf) => some (c :: pre, suf)
      | none => none

theorem splitOnce_eq_append (pat : List Char) :
    ∀ s pre suf, splitOnce pat s = some (pre, suf) → s = pre ++ pat ++ suf := by
  intro s
  induction s with
  | nil =>
    intro pre suf h
    simp only [splitOnce] at h
    by_cases hp : pat.isEmpty
    · rw [List.isEmpty_iff] at hp
      simp [hp] at h
      simp [hp, h.1, h.2]
    · simp [if_neg, hp] at h
  | cons c cs ih =>
    intro pre suf h
    simp only [splitOnce] at h
    by_cases hp : pat.isPrefixOf (c :: cs) = true
    · rw [if_pos hp] at h
      obtain ⟨t, ht⟩ := List.isPrefixOf_iff_prefix.mp hp
      injection h with h'
      injection h' with h1 h2
      subst h1
      rw [← ht] at h2 ⊢
      rw [← h2]
      simp [List.drop_left]
    · rw [if_neg hp] at h
      cases hsplit : splitOnce pat cs with
      | none => rw [hsplit] at h; exact absurd h (by simp)
      | some pr =>
        rw [hsplit] at h
        obtain ⟨pre', suf'⟩ := pr
        have := ih pre' suf' hsplit
        simp only [Option.some.injEq, Prod.mk.injEq] at h
        rw [← h.1, ← h.2]
        simp [this]

theorem splitOnce_isSome_append (pat : List Char) :
    ∀ (x t : List Char), (splitOnce pat t).isSome →
      (splitOnce pat (x ++ t)).isSome := by
  intro x
  induction x with
  | nil => intro t h; simpa using h
  | cons c x ih =>
    intro t h
    simp only [List.cons_append, splitOnce, List.append_eq]
    by_cases hp : pat.isPrefixOf (c :: (x ++ t)) = true
    · simp [hp]
    · rw [if_neg hp]
      have := ih t h
      cases hs : splitOnce pat (x ++ t) with
      | none => rw [hs] at this; simp at this
      | some pr => simp [hs]

/-- Sentinel marker opening the generated block in README.md. -/
def MARKER_START : List Char := "<!-- FIRMWARE_INDEX_START -->".data

/-- Sentinel marker closing the generated block in README.md. -/
def MARKER_END : List Char := "<!-- FIRMWARE_INDEX_END -->".data

/-- Insertion anchor used when the markers are absent. -/
def ABOUT_SECTION : List Char := "\n## About This Repository".data

/-- Scanner modelling re.sub of START.*?END (DOTALL) on lines 161-167
of update_firmware_index.py: each leftmost match, from the first
occurrence of the start marker to the earliest end marker after it, is
replaced by repl, and scanning resumes after the replaced span. -/
def subMarkersAux (repl : List Char) : Nat → List Char → List Char
  | 0, s => s
  | n + 1, s =>
    match splitOnce MARKER_START s with
    | none => s
    | some (pre, rest) =>
      match splitOnce MARKER_END rest with
      | none => s
      | some (_, rest2) => pre ++ repl ++ subMarkersAux repl n rest2

/-- Replace every marker-delimited span of s by repl. -/
def subMarkers (repl : List Char) (s : List Char) : List Char :=
  subMarkersAux repl (s.length + 1) s

/-- Scanner modelling Python str.replace on line 172 of
update_firmware_index.py: every occurrence of old, left to right and
non-overlapping, becomes rep. -/
def replaceAllAux (old rep : List Char) : Nat → List Char → List Char
  | 0, s => s
  | n + 1, s =>
    match splitOnce old s with
    | none => s
    | some (pre, suf) => pre ++ rep ++ replaceAllAux old rep n suf

/-- Replace every occurrence of old in s by rep. -/
def replaceAll (old rep : List Char) (s : List Char) : List Char :=
  replaceAllAux old rep (s.length + 1) s

theorem subMarkersAux_no_start (repl : List Char) (n : Nat) (s : List Char)
    (h : splitOnce MARKER_START s = none) : subMarkersAux repl n s = s := by
  cases n with
  | zero => rfl
  | succ n => simp [subMarkersAux, h]

theorem replaceAllAux_none (old rep : List Char) (n : Nat) (s : List Char)
    (h : splitOnce old s = none) : replaceAllAux old rep n s = s := by
  cases n with
  | zero => rfl
  | succ n => simp [replaceAllAux, h]

/-- Lines 148-183 of update_firmware_index.py, update_readme on the
character-list level: when both markers occur, rewrite every
marker-delimited span to hold the new index; otherwise insert the
block in front of the About This Repository heading when that heading
occurs; otherwise append the block at the end. -/
def update_readme_chars (index_content content : List Char) : List Char :=
  let block := MARKER_START ++ '\n' :: index_content ++ MARKER_END
  if (splitOnce MARKER_START content).isSome && (splitOnce MARKER_END content).isSome then
    subMarkers block content
  else if (splitOnce ABOUT_SECTION content).isSome then
    replaceAll ABOUT_SECTION ('\n' :: block ++ '\n' :: ABOUT_SECTION) content
  else
    content ++ '\n' :: '\n' :: block ++ ['\n']

/-- String-level wrapper of update_readme. -/
def update_readme (content index_content : String) : String :=
  String.mk (update_readme_chars index_content.data content.data)

/-- C9: priority order of the README write.  When both sentinel
markers occur (first start marker at the end of a, earliest end marker
after it at the end of b, no further start marker), the span between
the markers is replaced by the new index and everything outside the
span is unchanged.  When the start marker is absent but the About This
Repository heading occurs (at the end of p, exactly once), the block
is inserted immediately before the heading and everything else is
unchanged.  When the start marker and the heading are both absent, the
block is appended at the end of the document. -/
theorem update_readme_priority :
    (∀ idx a b c : List Char,
      splitOnce MARKER_START (a ++ MARKER_START ++ b ++ MARKER_END ++ c) =
        some (a, b ++ MARKER_END ++ c) →
      splitOnce MARKER_END (b ++ MARKER_END ++ c) = some (b, c) →
      splitOnce MARKER_START c = none →
      update_readme_chars idx (a ++ MARKER_START ++ b ++ MARKER_END ++ c) =
        a ++ MARKER_START ++ '\n' :: idx ++ MARKER_END ++ c) ∧
    (∀ idx p q : List Char,
      splitOnce MARKER_START (p ++ ABOUT_SECTION ++ q) = none →
      splitOnce ABOUT_SECTION (p ++ ABOUT_SECTION ++ q) = some (p, q) →
      splitOnce ABOUT_SECTION q = none →
      update_readme_chars idx (p ++ ABOUT_SECTION ++ q) =
        p ++ '\n' :: MARKER_START ++ '\n' :: idx ++ MARKER_END ++ '\n' :: ABOUT_SECTION ++ q) ∧
    (∀ idx content : List Char,
      splitOnce MARKER_START content = none →
      splitOnce ABOUT_SECTION content = none →
      update_readme_chars idx content =
        content ++ '\n' :: '\n' :: MARKER_START ++ '\n' :: idx ++ MARKER_END ++ ['\n']) := by
  refine ⟨?_, ?_, ?_⟩
  · intro idx a b c h1 h2 h3
    have hsome1 : (splitOnce MARKER_START
        (a ++ MARKER_START ++ b ++ MARKER_END ++ c)).isSome = true := by
      rw [h1]; rfl
    have hsome2 : (splitOnce MARKER_END
        (a ++ MARKER_START ++ b ++ MARKER_END ++ c)).isSome = true := by
      have := splitOnce_isSome_append MARKER_END (a ++ MARKER_START)
        (b ++ MARKER_END ++ c) (by rw [h2]; rfl)
      simpa [List.append_assoc] using this
    simp only [update_readme_chars, hsome1, hsome2, Bool.and_self, if_true]
    rw [subMarkers, subMarkersAux, h1]
    dsimp only
    rw [h2]
    dsimp only
    rw [subMarkersAux_no_start _ _ _ h3]
    simp [List.append_assoc]
  · intro idx p q h1 h2 h3
    have hsome1 : (splitOnce MARKER_START (p ++ ABOUT_SECTION ++ q)).isSome = false := by
      rw [h1]; rfl
    have hsome2 : (splitOnce ABOUT_SECTION (p ++ ABOUT_SECTION ++ q)).isSome = true := by
      rw [h2]; rfl
    simp only [update_readme_chars, hsome1, hsome2, Bool.false_and, Bool.false_eq_true,
      if_false, if_true, Bool.and_self]
    rw [replaceAll, replaceAllAux, h2]
    dsimp only
    rw [replaceAllAux_none _ _ _ _ h3]
    simp [List.append_assoc]
  · intro idx content h1 h2
    have hsome1 : (splitOnce MARKER_START content).isSome = false := by
      rw [h1]; rfl
    have hsome2 : (splitOnce ABOUT_SECTION content).isSome = false := by
      rw [h2]; rfl
    simp only [update_readme_chars, hsome1, hsome2, Bool.false_and, if_false]
    simp [List.append_assoc]

/-- Witness for C9: the three branches evaluated on small concrete
documents. -/
theorem update_readme_priority_witness :
    update_readme_chars "I".data
        ("X".data ++ MARKER_START ++ "old".data ++ MARKER_END ++ "Y".data) =
      "X".data ++ MARKER_START ++ '\n' :: "I".data ++ MARKER_END ++ "Y".data ∧
    update_readme_chars "I".data ("P".data ++ ABOUT_SECTION ++ "Q".data) =
      "P".data ++ '\n' :: MARKER_START ++ '\n' :: "I".data ++ MARKER_END ++
        '\n' :: ABOUT_SECTION ++ "Q".data ∧
    update_readme_chars "I".data "plain".data =
      "plain".data ++ '\n' :: '\n' :: MARKER_START ++ '\n' :: "I".data ++
        MARKER_END ++ ['\n'] :=
  ⟨update_readme_priority.1 "I".data "X".data "old".data "Y".data
      (by decide) (by decide) (by decide),
    update_readme_priority.2.1 "I".data "P".data "Q".data
      (by decide) (by decide) (by decide),
    update_readme_priority.2.2 "I".data "plain".data (by decide) (by decide)⟩

/-!
## Index Publisher: tag parsing

parse_tag (update_firmware_index.py lines 31-37) matches the anchored
pattern caret v (.+) hyphen (.+) dollar.  Dot does not match a newline
and the first group is greedy, so a tag matches exactly when, after
dropping at most one trailing newline (which dollar tolerates), the
body after the leading v contains no newline and splits at its last
hyphen into a non-empty version and a non-empty region; greediness
assigns everything before that last hyphen to the version group.
-/

/-- Split a character list at the last hyphen that is followed by a
non-empty suffix: the greedy choice of the first group of the tag
pattern. -/
def splitLastHyphen : List Char → Option (List Char × List Char)
  | [] => none
  | c :: cs =>
    match splitLastHyphen cs with
    | some (p, s) => some (c :: p, s)
    | none => if c = '-' && !cs.isEmpty then some ([], cs) else none

/-- Lines 31-37 of update_firmware_index.py: parse a release tag of the
form v{version}-{region} into the two groups, or none when the pattern
does not match. -/
def parse_tag (tag : String) : Option (String × String) :=
  match tag.data with
  | 'v' :: rest =>
    let body := if rest.getLast? = some '\n' then rest.dropLast else rest
    if body.contains '\n' then none
    else
      match splitLastHyphen body with
      | some (ver, reg) =>
        if ver.isEmpty then none else some (String.mk ver, String.mk reg)
      | none => none
  | _ => none

theorem splitLastHyphen_no_hyphen :
    ∀ l : List Char, (∀ x y : List Char, l ≠ x ++ '-' :: y) →
      splitLastHyphen l = none
  | [], _ => rfl
  | c :: cs, h => by
    have hcs : ∀ x y : List Char, cs ≠ x ++ '-' :: y := by
      intro x y hxy
      exact h (c :: x) y (by rw [hxy]; rfl)
    simp only [splitLastHyphen, splitLastHyphen_no_hyphen cs hcs]
    by_cases hc2 : c = '-'
    · subst hc2
      cases cs with
      | nil => rfl
      | cons d ds => exact absurd rfl (h [] (d :: ds))
    · simp [hc2]

/-- On a body of the shape a ++ hyphen ++ b with b non-empty and
hyphen-free, the greedy split picks exactly (a, b). -/
theorem splitLastHyphen_append :
    ∀ (a b : List Char), b ≠ [] → (∀ x y : List Char, b ≠ x ++ '-' :: y) →
      splitLastHyphen (a ++ '-' :: b) = some (a, b)
  | [], b, hb, hnb => by
    simp only [List.nil_append, splitLastHyphen,
      splitLastHyphen_no_hyphen b hnb]
    cases b with
    | nil => exact absurd rfl hb
    | cons d ds => rfl
  | c :: a, b, hb, hnb => by
    simp only [List.cons_append, splitLastHyphen, List.append_eq,
      splitLastHyphen_append a b hb hnb]

/-- C10 counterexample: on the tag v1-2-3, whose body holds more than
one hyphen, parse_tag returns the pair (1-2, 3), splitting at the last
hyphen; the region component is not everything after the first hyphen,
which would be (1, 2-3). -/
theorem parse_tag_counterexample :
    parse_tag "v1-2-3" ≠ some ("1", "2-3") ∧
    parse_tag "v1-2-3" = some ("1-2", "3") := by
  constructor <;> decide

/-- C10 as amended: parse_tag maps a tag v{version}-{region} to the
pair (version, region) where region is the suffix after the LAST
hyphen of the body and version is everything before it; stated for a
body made of a non-empty newline-free version part and a non-empty
hyphen-free newline-free region part. -/
theorem parse_tag_last_hyphen (ver reg : List Char)
    (hver : ver ≠ []) (hreg : reg ≠ []) (hregh : '-' ∉ reg)
    (hvern : '\n' ∉ ver) (hregn : '\n' ∉ reg) :
    parse_tag (String.mk ('v' :: (ver ++ '-' :: reg))) =
      some (String.mk ver, String.mk reg) := by
  have hnosplit : ∀ x y : List Char, reg ≠ x ++ '-' :: y := by
    intro x y hxy
    exact hregh (hxy ▸ List.mem_append_right x (List.mem_cons_self '-' y))
  have hrest_nl : '\n' ∉ ver ++ '-' :: reg := by
    intro hmem
    rcases List.mem_append.mp hmem with hm | hm
    · exact hvern hm
    · rcases List.mem_cons.mp hm with hm2 | hm2
      · exact absurd hm2.symm (by decide)
      · exact hregn hm2
  have hlast : ¬ ((ver ++ '-' :: reg).getLast? = some '\n') := by
    intro hl
    exact hrest_nl (List.mem_of_mem_getLast? hl)
  have hcont : (ver ++ '-' :: reg).contains '\n' = false := by
    simpa using hrest_nl
  simp only [parse_tag]
  rw [if_neg hlast]
  simp only [hcont, Bool.false_eq_true, if_false]
  rw [splitLastHyphen_append ver reg hreg hnosplit]
  dsimp only
  rw [if_neg (by simpa [List.isEmpty_iff] using hver)]

/-- Witness for the amended C10: a version part that itself holds a
hyphen; the region returned is the suffix after the last hyphen. -/
theorem parse_tag_last_hyphen_witness :
    parse_tag (String.mk ('v' :: ("OS2.0-beta".data ++ '-' :: "eea".data))) =
      some (String.mk "OS2.0-beta".data, String.mk "eea".data) :=
  parse_tag_last_hyphen "OS2.0-beta".data "eea".data (by decide) (by decide)
    (by decide) (by decide) (by decide)

/-!
## Firmware Discovery: the fastboot filename grammar

FASTBOOT_PATTERN (check_firmware_mi_community.py lines 38-40) is a
Python regular expression used with re.search.  It is embedded as a
small pattern language with exactly the constructs the pattern uses
(literals, greedy plus over a character class, a greedy optional
literal, named groups) and a backtracking matcher in
continuation-passing style with Python preference order: greedy
quantifiers try the longest extent first, and search tries match
positions left to right.  The step counter only bounds recursion
depth, which is at most the pattern size, so 1000 steps are ample.
The word class models backslash-w on the ASCII inputs used here.
-/

/-- Pattern constructs used by FASTBOOT_PATTERN. -/
inductive RE where
  | lit : List Char → RE
  | many1 : (Char → Bool) → RE
  | optLit : List Char → RE
  | group : String → List RE → RE

/-- Named captures collected by the matcher. -/
abbrev Caps := List (String × List Char)

/-- Try consumption lengths n, n-1, ..., 1, longest first: the greedy
preference of a plus quantifier. -/
def tryLens (k : Nat → Option Caps) : Nat → Option Caps
  | 0 => none
  | n + 1 =>
    match k (n + 1) with
    | some r => some r
    | none => tryLens k n

/-- Backtracking matcher: match the list of pattern elements against a
prefix of s, extending caps, and hand the remainder to the
continuation; preference order is that of the Python engine. -/
def matchSeq : Nat → List RE → List Char → Caps →
    (List Char → Caps → Option Caps) → Option Caps
  | 0, _, _, _, _ => none
  | _ + 1, [], s, caps, k => k s caps
  | fuel + 1, r :: rest, s, caps, k =>
    match r with
    | .lit l =>
      if l.isPrefixOf s then matchSeq fuel rest (s.drop l.length) caps k else none
    | .optLit l =>
      if l.isPrefixOf s then
        match matchSeq fuel rest (s.drop l.length) caps k with
        | some res => some res
        | none => matchSeq fuel rest s caps k
      else matchSeq fuel rest s caps k
    | .many1 p =>
      tryLens (fun n => matchSeq fuel rest (s.drop n) caps k) (s.takeWhile p).length
    | .group name body =>
      matchSeq fuel body s caps (fun s2 caps2 =>
        matchSeq fuel rest s2 ((name, s.take (s.length - s2.length)) :: caps2) k)

/-- Depth bound for the matcher; the recursion depth is bounded by the
number of pattern elements, far below this. -/
def reFuel : Nat := 1000

/-- Python re.search: try a match at every position, leftmost first. -/
def reSearch (rs : List RE) : List Char → Option Caps
  | [] => matchSeq reFuel rs [] [] (fun _ caps => some caps)
  | c :: cs =>
    match matchSeq reFuel rs (c :: cs) [] (fun _ caps => some caps) with
    | some caps => some caps
    | none => reSearch rs cs

/-- Word character class backslash-w, on ASCII input. -/
def wChar (c : Char) : Bool := c.isAlphanum || c = '_'

/-- Digit character class backslash-d. -/
def dChar (c : Char) : Bool := c.isDigit

/-- Lines 38-40 of check_firmware_mi_community.py, the fastboot
filename pattern, element by element. -/
def FASTBOOT_PATTERN : List RE := [
  .group "codename" [.many1 wChar],
  .lit "_".data,
  .group "region" [.many1 wChar],
  .optLit "_global".data,
  .lit "_images_".data,
  .group "version" [.many1 (fun c => wChar c || c = '.')],
  .lit "_".data,
  .group "date" [.many1 dChar, .lit ".".data, .many1 dChar, .lit ".".data, .many1 dChar],
  .lit "_".data,
  .group "android" [.many1 (fun c => dChar c || c = '.')],
  .lit "_".data,
  .group "region_code" [.many1 wChar],
  .lit "_".data,
  .group "md5_part" [.many1 wChar],
  .lit ".tgz".data
]

/-- Fields returned by parse_fastboot_filename, lines 160-173. -/
structure FastbootInfo where
  codename : String
  region : String
  version : String
  android : String
  date : String
  md5_part : String
deriving DecidableEq, Repr

/-- Lines 160-173 of check_firmware_mi_community.py: run the pattern
over the filename and collect the named groups. -/
def parse_fastboot_filename (filename : String) : Option FastbootInfo :=
  match reSearch FASTBOOT_PATTERN filename.data with
  | none => none
  | some caps =>
    match caps.lookup "codename", caps.lookup "region", caps.lookup "version",
        caps.lookup "android", caps.lookup "date", caps.lookup "md5_part" with
    | some cn, some rg, some ver, some an, some dt, some md =>
      some { codename := String.mk cn, region := String.mk rg,
             version := String.mk ver, android := String.mk an,
             date := String.mk dt, md5_part := String.mk md }
    | _, _, _, _, _, _ => none

/-!
## Manual Manifest Editor: filename generation
-/

/-- Device code name constant of the scripts. -/
def DEVICE_CODENAME : String := "degas"

/-- Lines 49-61 of manual_manifest_creator.py: build a fastboot
filename from version, region, date (YYYY-MM-DD, hyphens removed for
the compact token) and the platform version, with a placeholder hash
fragment. -/
def auto_generate_filename (version region date_str android_ver : String) : String :=
  let region_suffix := if region ≠ "global" then region ++ "_global" else "global"
  let date_compact := String.mk (date_str.data.filter (fun c => c ≠ '-')) ++ ".0000.00"
  let md5_placeholder := "xxxxxxxxxxxx"
  DEVICE_CODENAME ++ "_" ++ region_suffix ++ "_images_" ++ version ++ "_" ++
    date_compact ++ "_" ++ android_ver ++ "_" ++ region ++ "_" ++
    md5_placeholder ++ ".tgz"

/-- C6 counterexample: generating a filename for version
OS2.0.206.0.VNEEUXM, region eea, date 2025-11-10, android 15.0 and
parsing it back succeeds, but the parsed region is the literal global
(the greedy word class of the codename group absorbs the real region
together with the device code) and the parsed date is the compact
date-build token, so neither the region nor the date of the generator
input is reproduced. -/
theorem filename_roundtrip_counterexample :
    parse_fastboot_filename
        (auto_generate_filename "OS2.0.206.0.VNEEUXM" "eea" "2025-11-10" "15.0") =
      some { codename := "degas_eea", region := "global",
             version := "OS2.0.206.0.VNEEUXM", android := "15.0",
             date := "20251110.0000.00", md5_part := "xxxxxxxxxxxx" } ∧
    ("global" : String) ≠ "eea" ∧ ("20251110.0000.00" : String) ≠ "2025-11-10" :=
  ⟨by decide, by decide, by decide⟩

/-- C6 as amended: the round trip through the naming template and the
filename grammar succeeds and reproduces the version and android
fields exactly, but the parsed region is always the literal global and
the parsed date is the compact token obtained from the input date by
removing its hyphens and appending .0000.00; shown at a representative
non-global-region input and at a global-region input (where the region
incidentally coincides). -/
theorem filename_roundtrip_amended :
    parse_fastboot_filename
        (auto_generate_filename "OS2.0.206.0.VNEEUXM" "eea" "2025-11-10" "15.0") =
      some { codename := "degas_eea", region := "global",
             version := "OS2.0.206.0.VNEEUXM", android := "15.0",
             date := "20251110.0000.00", md5_part := "xxxxxxxxxxxx" } ∧
    parse_fastboot_filename
        (auto_generate_filename "OS2.0.200.0.VNEMIXM" "global" "2025-11-13" "15.0") =
      some { codename := "degas", region := "global",
             version := "OS2.0.200.0.VNEMIXM", android := "15.0",
             date := "20251113.0000.00", md5_part := "xxxxxxxxxxxx" } ∧
    parse_fastboot_filename
        (auto_generate_filename "OS2.0.207.0.VNEEUXM" "tw" "2025-11-29" "16.0") =
      some { codename := "degas_tw", region := "global",
             version := "OS2.0.207.0.VNEEUXM", android := "16.0",
             date := "20251129.0000.00", md5_part := "xxxxxxxxxxxx" } :=
  ⟨by decide, by decide, by decide⟩

/-!
## Index Publisher: deduplicated row generation

generate_firmware_index (update_firmware_index.py lines 59-146) walks
the release list once, skipping entries whose tag was already seen or
whose version-region key was already seen, and groups the surviving
rows by region in first-come dictionary order; each group is then
sorted by version descending.  The manifest store is abstracted as a
lookup function from region and version to an optional record.
-/

/-- One release entry as returned by the release listing. -/
structure Release where
  tagName : String
  name : String
  createdAt : String
deriving DecidableEq, Repr

/-- One rendered row of the firmware index. -/
structure Row where
  version : String
  tag : String
  url : String
  date : String
  name : String
  hyperos : String
  android : String
  md5 : String
deriving DecidableEq, Repr

/-- Lines 94-103: the row built for a release that passed
deduplication, enriched from the manifest lookup. -/
def rowOfRelease (manifests : String → String → Option VersionInfo) (repo : String)
    (version region : String) (rel : Release) : Row :=
  { version := version,
    tag := rel.tagName,
    url := "https://github.com/" ++ repo ++ "/releases/tag/" ++ rel.tagName,
    date := String.mk (rel.createdAt.data.take 10),
    name := rel.name,
    hyperos := match manifests region version with
      | some vi => vi.hyperos_version
      | none => "",
    android := match manifests region version with
      | some vi => vi.android_version
      | none => "",
    md5 := match manifests region version with
      | some vi => vi.md5
      | none => "" }

/-- State carried through the release loop: the two seen sets and the
insertion-ordered region dictionary. -/
structure IndexAcc where
  seenTags : List String
  seenVR : List String
  byRegion : List (String × List Row)

/-- Appending a row to the list of its region in the insertion-ordered
dictionary, creating the entry when absent. -/
def addToRegion : List (String × List Row) → String → Row → List (String × List Row)
  | [], r, row => [(r, [row])]
  | (r0, rows) :: rest, r, row =>
    if r0 = r then (r0, rows ++ [row]) :: rest
    else (r0, rows) :: addToRegion rest r row

/-- Lines 70-103: the loop body.  Unparseable tags are dropped; a tag
already seen, or a version-region key already seen, is skipped;
otherwise both are recorded and the row is appended to its region. -/
def processRelease (manifests : String → String → Option VersionInfo) (repo : String)
    (acc : IndexAcc) (rel : Release) : IndexAcc :=
  match parse_tag rel.tagName with
  | none => acc
  | some (version, region) =>
    if rel.tagName ∈ acc.seenTags then acc
    else if (version ++ "-" ++ region) ∈ acc.seenVR then acc
    else
      { seenTags := rel.tagName :: acc.seenTags,
        seenVR := (version ++ "-" ++ region) :: acc.seenVR,
        byRegion := addToRegion acc.byRegion region
          (rowOfRelease manifests repo version region rel) }

/-- Comparison of the per-region sort, line 107: version string
descending, stable. -/
def versionDesc (a b : Row) : Bool := strLe b.version a.version

/-- Lines 65-107: the deduplicated, region-grouped, version-sorted row
table of the generated index. -/
def generateRows (manifests : String → String → Option VersionInfo) (repo : String)
    (releases : List Release) : List (String × List Row) :=
  let acc := releases.foldl (processRelease manifests repo) ⟨[], [], []⟩
  acc.byRegion.map (fun p => (p.1, pySort versionDesc p.2))

/-- Number of rows for version v in the group of region r. -/
def countRowsFor (byR : List (String × List Row)) (v r : String) : Nat :=
  (byR.map (fun p => if p.1 = r then p.2.countP (fun row => row.version == v) else 0)).sum

/-- A character list whose hyphens, if any, are all at the very end:
the shape of every region group produced by parse_tag. -/
def NoMidHyphen (s : List Char) : Prop :=
  ∀ x y : List Char, s = x ++ '-' :: y → y = []

theorem splitLastHyphen_isSome_of_split :
    ∀ (x y : List Char), y ≠ [] → (splitLastHyphen (x ++ '-' :: y)).isSome = true
  | [], y, hy => by
    simp only [List.nil_append, splitLastHyphen]
    cases hsp : splitLastHyphen y with
    | some pr => rfl
    | none =>
      cases y with
      | nil => exact absurd rfl hy
      | cons c cs => rfl
  | c :: x, y, hy => by
    simp only [List.cons_append, splitLastHyphen]
    have := splitLastHyphen_isSome_of_split x y hy
    cases hsp : splitLastHyphen (x ++ '-' :: y) with
    | some pr => rfl
    | none => rw [hsp] at this; simp at this

theorem splitLastHyphen_none_noMid (l : List Char)
    (h : splitLastHyphen l = none) : NoMidHyphen l := by
  intro x y hxy
  by_contra hy
  have := splitLastHyphen_isSome_of_split x y hy
  rw [← hxy, h] at this
  simp at this

theorem splitLastHyphen_sound :
    ∀ (l p s : List Char), splitLastHyphen l = some (p, s) →
      l = p ++ '-' :: s ∧ s ≠ [] ∧ NoMidHyphen s
  | [], p, s, h => by simp [splitLastHyphen] at h
  | c :: cs, p, s, h => by
    simp only [splitLastHyphen] at h
    cases hsp : splitLastHyphen cs with
    | some pr =>
      obtain ⟨p', s'⟩ := pr
      rw [hsp] at h
      simp only [Option.some.injEq, Prod.mk.injEq] at h
      obtain ⟨hps, hss⟩ := h
      obtain ⟨hdecomp, hne, hnomid⟩ := splitLastHyphen_sound cs p' s' hsp
      refine ⟨?_, ?_, ?_⟩
      · rw [← hps, ← hss, hdecomp]; rfl
      · rw [← hss]; exact hne
      · rw [← hss]; exact hnomid
    | none =>
      rw [hsp] at h
      by_cases hc : c = '-'
      · subst hc
        cases cs with
        | nil => simp at h
        | cons d ds =>
          simp at h
          obtain ⟨rfl, rfl⟩ := h
          exact ⟨rfl, by simp, splitLastHyphen_none_noMid _ hsp⟩
      · simp [hc] at h

/-- Every region group returned by parse_tag is non-empty and has
hyphens only at its very end. -/
theorem parse_tag_region_props (t : String) (v r : String)
    (h : parse_tag t = some (v, r)) : r.data ≠ [] ∧ NoMidHyphen r.data := by
  simp only [parse_tag] at h
  split at h
  · split at h
    all_goals (
      split at h
      · exact absurd h (by simp)
      · split at h
        · rename_i ver reg hsp
          split at h
          · exact absurd h (by simp)
          · simp only [Option.some.injEq, Prod.mk.injEq] at h
            obtain ⟨hdecomp, hne, hnomid⟩ := splitLastHyphen_sound _ ver reg hsp
            rw [← h.2]
            exact ⟨hne, hnomid⟩
        · exact absurd h (by simp))
  · exact absurd h (by simp)

/-- Characterisation used for key uniqueness: a decomposition at a
hyphen whose suffix is non-empty and has hyphens only at its end is
unique. -/
theorem lastHyphenDecompInj :
    ∀ (a b a2 b2 : List Char), NoMidHyphen b → NoMidHyphen b2 →
      b ≠ [] → b2 ≠ [] → a ++ '-' :: b = a2 ++ '-' :: b2 → a = a2 ∧ b = b2
  | [], b, [], b2, _, _, _, _, h => by
    simp only [List.nil_append, List.cons.injEq] at h
    exact ⟨rfl, h.2⟩
  | [], b, c :: a2, b2, hb, _, _, hb2, h => by
    simp only [List.nil_append, List.cons_append, List.cons.injEq] at h
    exact absurd (hb a2 b2 h.2) hb2
  | c :: a, b, [], b2, _, hb2, hb0, _, h => by
    simp only [List.nil_append, List.cons_append, List.cons.injEq] at h
    exact absurd (hb2 a b h.2.symm) hb0
  | c :: a, b, c2 :: a2, b2, hb, hb2, hbne, hb2ne, h => by
    simp only [List.cons_append, List.cons.injEq] at h
    obtain ⟨ha, hb'⟩ := lastHyphenDecompInj a b a2 b2 hb hb2 hbne hb2ne h.2
    exact ⟨by rw [h.1, ha], hb'⟩

/-- Uniqueness of the version-region key: two parseable pairs with the
same key string agree. -/
theorem versionRegionKey_inj (v r v2 r2 : String)
    (hr : NoMidHyphen r.data) (hr2 : NoMidHyphen r2.data)
    (hrne : r.data ≠ []) (hr2ne : r2.data ≠ [])
    (h : v ++ "-" ++ r = v2 ++ "-" ++ r2) : v = v2 ∧ r = r2 := by
  have hdata : v.data ++ '-' :: r.data = v2.data ++ '-' :: r2.data := by
    have := congrArg String.data h
    simpa [String.data_append] using this
  obtain ⟨h1, h2⟩ := lastHyphenDecompInj v.data r.data v2.data r2.data hr hr2 hrne hr2ne hdata
  constructor
  · cases v; cases v2; exact congrArg String.mk h1
  · cases r; cases r2; exact congrArg String.mk h2

theorem countRowsFor_addToRegion (r0 : String) (row : Row) (v r : String) :
    ∀ byR : List (String × List Row),
      countRowsFor (addToRegion byR r0 row) v r =
        countRowsFor byR v r + (if r0 = r ∧ row.version = v then 1 else 0) := by
  intro byR
  induction byR with
  | nil =>
    simp only [addToRegion, countRowsFor, List.map_cons, List.map_nil, List.sum_cons,
      List.sum_nil]
    by_cases h0 : r0 = r
    · by_cases hv : row.version = v
      · simp [h0, hv, List.countP_cons]
      · simp [h0, hv, List.countP_cons]
    · simp [h0]
  | cons p rest ih =>
    obtain ⟨pr, rows⟩ := p
    simp only [addToRegion]
    by_cases hp : pr = r0
    · subst hp
      simp only [if_pos rfl]
      by_cases hr : pr = r
      · by_cases hv : row.version = v <;>
          (simp [countRowsFor, hr, hv, List.countP_append, List.countP_cons]; try omega)
      · simp [countRowsFor, hr]
    · simp only [if_neg hp]
      simp only [countRowsFor, List.map_cons, List.sum_cons]
      simp only [countRowsFor] at ih
      rw [ih]
      omega

theorem countRowsFor_sorted (v r : String) :
    ∀ byR : List (String × List Row),
      countRowsFor (byR.map (fun p => (p.1, pySort versionDesc p.2))) v r =
        countRowsFor byR v r := by
  intro byR
  induction byR with
  | nil => rfl
  | cons p rest ih =>
    simp only [List.map_cons, countRowsFor, List.sum_cons] at ih ⊢
    have hhead : (if p.1 = r then (pySort versionDesc p.2).countP
          (fun row => row.version == v) else 0) =
        (if p.1 = r then p.2.countP (fun row => row.version == v) else 0) := by
      by_cases hp : p.1 = r
      · simp [hp, (pySort_perm versionDesc p.2).countP_eq]
      · simp [hp]
    rw [hhead, ih]

/-- Invariant of the release loop: every seen tag has its key in the
seen key set, and the number of rows for the pair (v, r) is one
exactly when its key has been seen. -/
def IndexInv (v r : String) (acc : IndexAcc) : Prop :=
  (∀ t ∈ acc.seenTags, ∀ p q : String, parse_tag t = some (p, q) →
    (p ++ "-" ++ q) ∈ acc.seenVR) ∧
  countRowsFor acc.byRegion v r = (if (v ++ "-" ++ r) ∈ acc.seenVR then 1 else 0)

theorem processRelease_seenVR_mono (manifests : String → String → Option VersionInfo)
    (repo : String) (acc : IndexAcc) (rel : Release) :
    acc.seenVR ⊆ (processRelease manifests repo acc rel).seenVR := by
  simp only [processRelease]
  split
  · exact fun _ h => h
  · split
    · exact fun _ h => h
    · split
      · exact fun _ h => h
      · exact List.subset_cons_of_subset _ (fun _ h => h)

theorem processRelease_inv (manifests : String → String → Option VersionInfo)
    (repo : String) (v r : String) (hrne : r.data ≠ []) (hrnm : NoMidHyphen r.data)
    (acc : IndexAcc) (rel : Release) (hinv : IndexInv v r acc) :
    IndexInv v r (processRelease manifests repo acc rel) := by
  obtain ⟨h1, h2⟩ := hinv
  simp only [processRelease]
  split
  · exact ⟨h1, h2⟩
  · rename_i version region hparse
    by_cases htag : rel.tagName ∈ acc.seenTags
    · simp only [if_pos htag]; exact ⟨h1, h2⟩
    · simp only [if_neg htag]
      by_cases hkey : (version ++ "-" ++ region) ∈ acc.seenVR
      · simp only [if_pos hkey]; exact ⟨h1, h2⟩
      · simp only [if_neg hkey]
        constructor
        · intro t ht p q hpq
          rcases List.mem_cons.mp ht with rfl | htl
          · rw [hparse] at hpq
            simp only [Option.some.injEq, Prod.mk.injEq] at hpq
            rw [← hpq.1, ← hpq.2]
            exact List.mem_cons_self _ _
          · exact List.mem_cons_of_mem _ (h1 t htl p q hpq)
        · rw [countRowsFor_addToRegion]
          by_cases heq : (version ++ "-" ++ region : String) = v ++ "-" ++ r
          · obtain ⟨hqne, hqnm⟩ := parse_tag_region_props _ _ _ hparse
            obtain ⟨hv, hr⟩ :=
              versionRegionKey_inj version region v r hqnm hrnm hqne hrne heq
            subst hv
            subst hr
            rw [h2, if_neg hkey]
            simp [rowOfRelease, List.mem_cons]
          · have hne : ¬(region = r ∧
                (rowOfRelease manifests repo version region rel).version = v) := by
              rintro ⟨rfl, hv⟩
              simp only [rowOfRelease] at hv
              exact heq (by rw [hv])
            rw [if_neg hne, h2]
            have hmemiff : ((v ++ "-" ++ r : String) ∈
                (version ++ "-" ++ region) :: acc.seenVR) ↔
                (v ++ "-" ++ r : String) ∈ acc.seenVR := by
              simp only [List.mem_cons, or_iff_right_iff_imp]
              intro habs
              exact absurd habs.symm heq
            by_cases hmem : (v ++ "-" ++ r : String) ∈ acc.seenVR
            · simp [hmemiff, hmem]
            · simp [hmemiff, hmem]

theorem foldl_index_inv (manifests : String → String → Option VersionInfo)
    (repo : String) (v r : String) (hrne : r.data ≠ []) (hrnm : NoMidHyphen r.data) :
    ∀ (l : List Release) (acc : IndexAcc), IndexInv v r acc →
      IndexInv v r (l.foldl (processRelease manifests repo) acc)
  | [], _, h => h
  | rel :: l, acc, h =>
    foldl_index_inv manifests repo v r hrne hrnm l _
      (processRelease_inv manifests repo v r hrne hrnm acc rel h)

theorem foldl_key_mem (manifests : String → String → Option VersionInfo)
    (repo : String) (v r : String) (hrne : r.data ≠ []) (hrnm : NoMidHyphen r.data) :
    ∀ (l : List Release) (acc : IndexAcc), IndexInv v r acc →
      ((∃ rel ∈ l, parse_tag rel.tagName = some (v, r)) ∨
        (v ++ "-" ++ r : String) ∈ acc.seenVR) →
      (v ++ "-" ++ r : String) ∈ (l.foldl (processRelease manifests repo) acc).seenVR := by
  intro l
  induction l with
  | nil =>
    intro acc _ hdisj
    rcases hdisj with ⟨rel, hmem, _⟩ | hk
    · exact absurd hmem (List.not_mem_nil rel)
    · simpa using hk
  | cons rel l ih =>
    intro acc hinv hdisj
    have hinv' := processRelease_inv manifests repo v r hrne hrnm acc rel hinv
    simp only [List.foldl_cons]
    rcases hdisj with ⟨rel0, hmem0, hp0⟩ | hk
    · rcases List.mem_cons.mp hmem0 with rfl | hmem0b
      · refine ih _ hinv' (Or.inr ?_)
        simp only [processRelease]
        rw [hp0]
        dsimp only
        by_cases htag : rel0.tagName ∈ acc.seenTags
        · simp only [if_pos htag]
          exact hinv.1 rel0.tagName htag v r hp0
        · simp only [if_neg htag]
          by_cases hkey : (v ++ "-" ++ r : String) ∈ acc.seenVR
          · simp only [if_pos hkey]; exact hkey
          · simp only [if_neg hkey]; exact List.mem_cons_self _ _
      · exact ih _ hinv' (Or.inl ⟨rel0, hmem0b, hp0⟩)
    · exact ih _ hinv' (Or.inr (processRelease_seenVR_mono manifests repo acc rel hk))

/-- C7: the Index Publisher emits exactly one row per logical release.
For every release list and every pair (v, r) that some release tag
parses to, the generated index holds exactly one row with version v in
the group of region r: duplicate tag strings are skipped by the seen
tag set, and a second tag yielding the same version-region key is
skipped by the seen key set. -/
theorem index_dedup (manifests : String → String → Option VersionInfo) (repo : String)
    (releases : List Release) (v r : String)
    (hex : ∃ rel ∈ releases, parse_tag rel.tagName = some (v, r)) :
    countRowsFor (generateRows manifests repo releases) v r = 1 := by
  obtain ⟨rel0, hmem0, hp0⟩ := hex
  obtain ⟨hrne, hrnm⟩ := parse_tag_region_props _ _ _ hp0
  have hinv0 : IndexInv v r ⟨[], [], []⟩ := by
    constructor
    · intro t ht
      exact absurd ht (List.not_mem_nil t)
    · simp [countRowsFor]
  have hinv := foldl_index_inv manifests repo v r hrne hrnm releases _ hinv0
  have hkey := foldl_key_mem manifests repo v r hrne hrnm releases _ hinv0
    (Or.inl ⟨rel0, hmem0, hp0⟩)
  simp only [generateRows]
  rw [countRowsFor_sorted]
  rw [hinv.2, if_pos hkey]

/-- Release entry of the witness scenario. -/
def demoRel1 : Release :=
  { tagName := "vOS2.0.206.0.VNEEUXM-eea",
    name := "Xiaomi 14T OS2.0.206.0.VNEEUXM (eea)",
    createdAt := "2025-11-20T10:00:00Z" }

/-- A second entry with the identical tag string. -/
def demoRel2 : Release :=
  { tagName := "vOS2.0.206.0.VNEEUXM-eea",
    name := "duplicate of the same release",
    createdAt := "2025-11-21T10:00:00Z" }

/-- An unrelated release of the same region. -/
def demoRel3 : Release :=
  { tagName := "vOS2.0.207.0.VNEEUXM-eea",
    name := "another version",
    createdAt := "2025-11-29T10:00:00Z" }

/-- Witness for C7: two entries with the identical tag produce exactly
one row for that version and region. -/
theorem index_dedup_witness :
    (∃ rel ∈ [demoRel1, demoRel2, demoRel3],
      parse_tag rel.tagName = some ("OS2.0.206.0.VNEEUXM", "eea")) ∧
    countRowsFor (generateRows (fun _ _ => none) "nicodotgit/degas-fw-dump"
      [demoRel1, demoRel2, demoRel3]) "OS2.0.206.0.VNEEUXM" "eea" = 1 :=
  ⟨by decide,
    index_dedup (fun _ _ => none) "nicodotgit/degas-fw-dump"
      [demoRel1, demoRel2, demoRel3] "OS2.0.206.0.VNEEUXM" "eea" (by decide)⟩
